import Mathlib

/-!
Shallow embedding of the Plaszczynski MAS estimator module
(`src/chivos/.ipynb_checkpoints/plaszczynski-checkpoint.py`).

Scalars are modelled as exact real numbers together with the IEEE-754 special
values the NumPy code can actually produce: `nan`, `+inf` and `-inf`.  The
embedding does not track the sign of zero: in this program every value that is
ever used as a divisor or fed to `exp` is a square, a square root or a positive
constant, all of which carry IEEE sign `+0` when they vanish, so collapsing
`-0.0` into the single real `0` is faithful.  NumPy ufunc expressions on
same-shape one-dimensional arrays act elementwise; arrays are modelled as
lists and each helper (whose body is a single ufunc expression) as the
elementwise application of its scalar formula.
-/

namespace Chivos

/-- IEEE-style scalar value: NaN, an infinity, or a finite real. -/
inductive FP where
  | nan : FP
  | pinf : FP
  | ninf : FP
  | fin : ℝ → FP

/-- IEEE negation. -/
noncomputable def fpNeg : FP → FP
  | .nan => .nan
  | .pinf => .ninf
  | .ninf => .pinf
  | .fin a => .fin (-a)

/-- IEEE addition (zero signs collapsed). -/
noncomputable def fpAdd : FP → FP → FP
  | .nan, _ => .nan
  | _, .nan => .nan
  | .pinf, .ninf => .nan
  | .ninf, .pinf => .nan
  | .pinf, _ => .pinf
  | _, .pinf => .pinf
  | .ninf, _ => .ninf
  | _, .ninf => .ninf
  | .fin a, .fin b => .fin (a + b)

/-- IEEE subtraction. -/
noncomputable def fpSub (x y : FP) : FP := fpAdd x (fpNeg y)

/-- IEEE multiplication (zero signs collapsed). -/
noncomputable def fpMul : FP → FP → FP
  | .nan, _ => .nan
  | _, .nan => .nan
  | .pinf, .pinf => .pinf
  | .pinf, .ninf => .ninf
  | .ninf, .pinf => .ninf
  | .ninf, .ninf => .pinf
  | .pinf, .fin a => if a = 0 then .nan else if 0 < a then .pinf else .ninf
  | .fin a, .pinf => if a = 0 then .nan else if 0 < a then .pinf else .ninf
  | .ninf, .fin a => if a = 0 then .nan else if 0 < a then .ninf else .pinf
  | .fin a, .ninf => if a = 0 then .nan else if 0 < a then .ninf else .pinf
  | .fin a, .fin b => .fin (a * b)

/-- IEEE division.  A vanishing finite divisor is treated as `+0`, which is
faithful here because every divisor in the program (`bias ** 2`, `2.`, `P`)
is a square, a positive constant or a square root. -/
noncomputable def fpDiv : FP → FP → FP
  | .nan, _ => .nan
  | _, .nan => .nan
  | .pinf, .pinf => .nan
  | .pinf, .ninf => .nan
  | .ninf, .pinf => .nan
  | .ninf, .ninf => .nan
  | .pinf, .fin a => if 0 ≤ a then .pinf else .ninf
  | .ninf, .fin a => if 0 ≤ a then .ninf else .pinf
  | .fin _, .pinf => .fin 0
  | .fin _, .ninf => .fin 0
  | .fin a, .fin b =>
      if b = 0 then (if a = 0 then .nan else if 0 < a then .pinf else .ninf)
      else .fin (a / b)

/-- The map `np.exp` extended to specials. -/
noncomputable def fpExp : FP → FP
  | .nan => .nan
  | .pinf => .pinf
  | .ninf => .fin 0
  | .fin a => .fin (Real.exp a)

/-- The map `np.sqrt` extended to specials: a negative radicand yields NaN. -/
noncomputable def fpSqrt : FP → FP
  | .nan => .nan
  | .pinf => .pinf
  | .ninf => .nan
  | .fin a => if a < 0 then .nan else .fin (Real.sqrt a)

/-- The map `np.sqrt` applied to a real-valued expression. -/
noncomputable def fpSqrtR (x : ℝ) : FP := fpSqrt (.fin x)

/-- Squaring `x ** 2` on IEEE scalars; it coincides with self-multiplication. -/
noncomputable def fpPow2 (x : FP) : FP := fpMul x x

/-- Two-argument arctangent `np.arctan2 y x`, the argument of the complex
number with real part `x` and imaginary part `y`; its range is `(-π, π]`
with `arctan2 0 0 = 0`, matching NumPy on (unsigned-zero) real inputs. -/
noncomputable def arctan2 (y x : ℝ) : ℝ := Complex.arg ⟨x, y⟩

/-- Floored modulus `np.mod x y = x - y * ⌊x / y⌋`, for `y ≠ 0`. -/
noncomputable def npmod (x y : ℝ) : ℝ := x - y * ⌊x / y⌋

/-- Helper `_phi(q, u) = np.arctan2(u, q)`. -/
noncomputable def _phi (q u : ℝ) : ℝ := arctan2 u q

/-- Helper `_theta(sq, su, rsqsu) = np.mod(0.5 * np.arctan2(2*rsqsu, sq**2 - su**2), np.pi)`. -/
noncomputable def _theta (sq su rsqsu : ℝ) : ℝ :=
  npmod (0.5 * arctan2 (2 * rsqsu) (sq ^ 2 - su ^ 2)) Real.pi

/-- Radicand of `_sigma_q_prime` (the argument of its `np.sqrt`). -/
noncomputable def radq (sq su rsqsu th : ℝ) : ℝ :=
  sq ^ 2 * Real.cos th ^ 2 + su ^ 2 * Real.sin th ^ 2 + rsqsu * Real.sin (2 * th)

/-- Radicand of `_sigma_u_prime` (the argument of its `np.sqrt`). -/
noncomputable def radu (sq su rsqsu th : ℝ) : ℝ :=
  sq ^ 2 * Real.sin th ^ 2 + su ^ 2 * Real.cos th ^ 2 - rsqsu * Real.sin (2 * th)

/-- Helper `_sigma_q_prime(sq, su, rsqsu, theta)`. -/
noncomputable def _sigma_q_prime (sq su rsqsu th : ℝ) : FP := fpSqrtR (radq sq su rsqsu th)

/-- Helper `_sigma_u_prime(sq, su, rsqsu, theta)`. -/
noncomputable def _sigma_u_prime (sq su rsqsu th : ℝ) : FP := fpSqrtR (radu sq su rsqsu th)

/-- Helper `_bias(sqp, sup, phi, theta)`; `sqp`, `sup` may be NaN, the trigonometric
factors are finite reals. -/
noncomputable def _bias (sqp sup : FP) (phi th : ℝ) : FP :=
  fpSqrt (fpAdd (fpMul (fpPow2 sup) (.fin (Real.cos (phi - th) ^ 2)))
                (fpMul (fpPow2 sqp) (.fin (Real.sin (phi - th) ^ 2))))

/-- Helper `_P(q, u) = np.sqrt(q**2 + u**2)`. -/
noncomputable def _P (q u : ℝ) : FP := fpSqrtR (q ^ 2 + u ^ 2)

/-- The return expression of `PMAS`:
`P - bias ** 2 * (1. - np.exp(- P ** 2 / bias ** 2)) / 2. / P`. -/
noncomputable def masFormula (P bias : FP) : FP :=
  fpSub P
    (fpDiv
      (fpDiv
        (fpMul (fpPow2 bias)
          (fpSub (.fin 1) (fpExp (fpDiv (fpNeg (fpPow2 P)) (fpPow2 bias)))))
        (.fin 2))
      P)

/-- Top-level estimator `PMAS(q, u, sq, su, rsqsu)` on scalars. -/
noncomputable def PMAS (q u sq su rsqsu : ℝ) : FP :=
  let P := _P q u
  let phi := _phi q u
  let theta := _theta sq su rsqsu
  let sqp := _sigma_q_prime sq su rsqsu theta
  let sup := _sigma_u_prime sq su rsqsu theta
  let bias := _bias sqp sup phi theta
  masFormula P bias

/-- The bias value `b` computed by the six-step pipeline inside `PMAS`. -/
noncomputable def biasOf (q u sq su rsqsu : ℝ) : FP :=
  _bias (_sigma_q_prime sq su rsqsu (_theta sq su rsqsu))
        (_sigma_u_prime sq su rsqsu (_theta sq su rsqsu))
        (_phi q u) (_theta sq su rsqsu)

/-- Elementwise combination of three equal-length arrays. -/
def zipWith3 (f : α → β → γ → δ) : List α → List β → List γ → List δ
  | a :: as, b :: bs, c :: cs => f a b c :: zipWith3 f as bs cs
  | _, _, _ => []

/-- Elementwise combination of four equal-length arrays. -/
def zipWith4 (f : α → β → γ → δ → ε) : List α → List β → List γ → List δ → List ε
  | a :: as, b :: bs, c :: cs, d :: ds => f a b c d :: zipWith4 f as bs cs ds
  | _, _, _, _ => []

/-- Helper `_phi` on arrays: `np.arctan2` is a ufunc, acting elementwise. -/
noncomputable def _phiV (qs us : List ℝ) : List ℝ := List.zipWith _phi qs us

/-- Helper `_theta` on arrays: its body is a single ufunc expression (with the
scalars `0.5` and `np.pi` broadcast), hence elementwise. -/
noncomputable def _thetaV (sqs sus rs : List ℝ) : List ℝ := zipWith3 _theta sqs sus rs

/-- Helper `_sigma_q_prime` on arrays (elementwise ufunc expression). -/
noncomputable def _sigma_q_primeV (sqs sus rs ths : List ℝ) : List FP :=
  zipWith4 _sigma_q_prime sqs sus rs ths

/-- Helper `_sigma_u_prime` on arrays (elementwise ufunc expression). -/
noncomputable def _sigma_u_primeV (sqs sus rs ths : List ℝ) : List FP :=
  zipWith4 _sigma_u_prime sqs sus rs ths

/-- Helper `_bias` on arrays (elementwise ufunc expression). -/
noncomputable def _biasV (sqps sups : List FP) (phis ths : List ℝ) : List FP :=
  zipWith4 _bias sqps sups phis ths

/-- Helper `_P` on arrays (elementwise ufunc expression). -/
noncomputable def _PV (qs us : List ℝ) : List FP := List.zipWith _P qs us

/-- Top-level estimator `PMAS` on one-dimensional arrays of common shape,
composing the array versions of the helpers exactly as the source does;
the return expression is a ufunc expression in the arrays `P` and `bias`. -/
noncomputable def PMASV (qs us sqs sus rs : List ℝ) : List FP :=
  let Ps := _PV qs us
  let phis := _phiV qs us
  let thetas := _thetaV sqs sus rs
  let sqps := _sigma_q_primeV sqs sus rs thetas
  let sups := _sigma_u_primeV sqs sus rs thetas
  let biases := _biasV sqps sups phis thetas
  List.zipWith masFormula Ps biases

/-- Discriminant `sqrt((σ_q² - σ_u²)² + (2 ρσ_qσ_u)²)` of the noise
ellipse; a derived quantity used to express the rotated radicands in closed
form. -/
noncomputable def discr (sq su rsqsu : ℝ) : ℝ :=
  Real.sqrt ((sq ^ 2 - su ^ 2) ^ 2 + (2 * rsqsu) ^ 2)

/-! ## Reduction lemmas for the IEEE operations -/

@[simp] theorem fpNeg_fin (a : ℝ) : fpNeg (.fin a) = .fin (-a) := rfl

@[simp] theorem fpAdd_fin_fin (a b : ℝ) : fpAdd (.fin a) (.fin b) = .fin (a + b) := rfl

@[simp] theorem fpAdd_nan_right (x : FP) : fpAdd x .nan = .nan := by cases x <;> rfl

@[simp] theorem fpAdd_nan_left (x : FP) : fpAdd .nan x = .nan := by cases x <;> rfl

@[simp] theorem fpSub_fin_fin (a b : ℝ) : fpSub (.fin a) (.fin b) = .fin (a - b) := by
  show FP.fin (a + -b) = FP.fin (a - b)
  rw [← sub_eq_add_neg]

@[simp] theorem fpSub_fin_nan (a : ℝ) : fpSub (.fin a) .nan = .nan := rfl

@[simp] theorem fpMul_fin_fin (a b : ℝ) : fpMul (.fin a) (.fin b) = .fin (a * b) := rfl

@[simp] theorem fpMul_nan_left (x : FP) : fpMul .nan x = .nan := by cases x <;> rfl

@[simp] theorem fpMul_nan_right (x : FP) : fpMul x .nan = .nan := by cases x <;> rfl

@[simp] theorem fpPow2_fin (a : ℝ) : fpPow2 (.fin a) = .fin (a * a) := rfl

@[simp] theorem fpPow2_nan : fpPow2 .nan = .nan := rfl

@[simp] theorem fpExp_fin (a : ℝ) : fpExp (.fin a) = .fin (Real.exp a) := rfl

@[simp] theorem fpExp_nan : fpExp .nan = .nan := rfl

@[simp] theorem fpExp_ninf : fpExp .ninf = .fin 0 := rfl

@[simp] theorem fpSqrt_nan : fpSqrt .nan = .nan := rfl

@[simp] theorem fpDiv_nan_left (x : FP) : fpDiv .nan x = .nan := by cases x <;> rfl

@[simp] theorem fpDiv_nan_right (x : FP) : fpDiv x .nan = .nan := by cases x <;> rfl

theorem fpDiv_fin_fin (a b : ℝ) (hb : b ≠ 0) : fpDiv (.fin a) (.fin b) = .fin (a / b) := by
  show (if b = 0 then _ else FP.fin (a / b)) = _
  rw [if_neg hb]

theorem fpDiv_fin_zero_neg (a : ℝ) (ha : a < 0) : fpDiv (.fin a) (.fin 0) = .ninf := by
  show (if (0 : ℝ) = 0 then _ else _) = _
  rw [if_pos rfl, if_neg (by linarith), if_neg (by linarith)]

theorem fpDiv_zero_zero : fpDiv (.fin 0) (.fin 0) = .nan := by
  show (if (0 : ℝ) = 0 then _ else _) = _
  rw [if_pos rfl, if_pos rfl]

theorem fpSqrtR_of_nonneg (x : ℝ) (hx : 0 ≤ x) : fpSqrtR x = .fin (Real.sqrt x) := by
  show (if x < 0 then _ else _) = _
  rw [if_neg (not_lt.2 hx)]

theorem fpSqrtR_of_neg (x : ℝ) (hx : x < 0) : fpSqrtR x = .nan := by
  show (if x < 0 then _ else _) = _
  rw [if_pos hx]

@[simp] theorem fpSqrtR_zero : fpSqrtR 0 = .fin 0 := by
  rw [fpSqrtR_of_nonneg 0 le_rfl, Real.sqrt_zero]

@[simp] theorem fpSqrtR_one : fpSqrtR 1 = .fin 1 := by
  rw [fpSqrtR_of_nonneg 1 zero_le_one, Real.sqrt_one]

/-! ## The floored modulus -/

theorem npmod_nonneg (x y : ℝ) (hy : 0 < y) : 0 ≤ npmod x y := by
  have h := Int.floor_le (x / y)
  have := (mul_le_mul_left hy).2 h
  rw [mul_div_cancel₀ x (ne_of_gt hy)] at this
  simpa [npmod] using this

theorem npmod_lt (x y : ℝ) (hy : 0 < y) : npmod x y < y := by
  have h := Int.lt_floor_add_one (x / y)
  have := (mul_lt_mul_left hy).2 h
  rw [mul_div_cancel₀ x (ne_of_gt hy), mul_add, mul_one] at this
  simp only [npmod]
  linarith

@[simp] theorem npmod_zero_left (y : ℝ) : npmod 0 y = 0 := by
  simp [npmod]

theorem cos_two_npmod_pi (x : ℝ) : Real.cos (2 * npmod x Real.pi) = Real.cos (2 * x) := by
  have h : 2 * npmod x Real.pi = 2 * x - (⌊x / Real.pi⌋ : ℤ) * (2 * Real.pi) := by
    simp only [npmod]; ring
  rw [h, Real.cos_sub_int_mul_two_pi]

theorem sin_two_npmod_pi (x : ℝ) : Real.sin (2 * npmod x Real.pi) = Real.sin (2 * x) := by
  have h : 2 * npmod x Real.pi = 2 * x - (⌊x / Real.pi⌋ : ℤ) * (2 * Real.pi) := by
    simp only [npmod]; ring
  rw [h, Real.sin_sub_int_mul_two_pi]

/-! ## The two-argument arctangent -/

theorem sin_arctan2 (y x : ℝ) :
    Real.sin (arctan2 y x) = y / Real.sqrt (x ^ 2 + y ^ 2) := by
  have h := Complex.sin_arg (⟨x, y⟩ : ℂ)
  rwa [Complex.abs_apply, Complex.normSq_mk, show x * x + y * y = x ^ 2 + y ^ 2 by ring] at h

theorem cos_arctan2 (y x : ℝ) (h : ¬(x = 0 ∧ y = 0)) :
    Real.cos (arctan2 y x) = x / Real.sqrt (x ^ 2 + y ^ 2) := by
  have hz : (⟨x, y⟩ : ℂ) ≠ 0 := by
    simp only [ne_eq, Complex.ext_iff, Complex.zero_re, Complex.zero_im]
    tauto
  have hc := Complex.cos_arg hz
  rwa [Complex.abs_apply, Complex.normSq_mk, show x * x + y * y = x ^ 2 + y ^ 2 by ring] at hc

theorem arctan2_zero_zero : arctan2 0 0 = 0 := by
  have h : (⟨0, 0⟩ : ℂ) = 0 := by
    simp [Complex.ext_iff]
  rw [arctan2, h, Complex.arg_zero]

/-! ## Closed forms for the rotated radicands -/

theorem discr_nonneg (sq su r : ℝ) : 0 ≤ discr sq su r := Real.sqrt_nonneg _

theorem discr_mul_cos_sin (sq su r : ℝ) :
    discr sq su r * Real.cos (2 * _theta sq su r) = sq ^ 2 - su ^ 2 ∧
    discr sq su r * Real.sin (2 * _theta sq su r) = 2 * r := by
  have hcos : Real.cos (2 * _theta sq su r) =
      Real.cos (arctan2 (2 * r) (sq ^ 2 - su ^ 2)) := by
    rw [_theta, cos_two_npmod_pi, show 2 * (0.5 * arctan2 (2 * r) (sq ^ 2 - su ^ 2)) =
      arctan2 (2 * r) (sq ^ 2 - su ^ 2) by ring]
  have hsin : Real.sin (2 * _theta sq su r) =
      Real.sin (arctan2 (2 * r) (sq ^ 2 - su ^ 2)) := by
    rw [_theta, sin_two_npmod_pi, show 2 * (0.5 * arctan2 (2 * r) (sq ^ 2 - su ^ 2)) =
      arctan2 (2 * r) (sq ^ 2 - su ^ 2) by ring]
  have hD : discr sq su r = Real.sqrt ((sq ^ 2 - su ^ 2) ^ 2 + (2 * r) ^ 2) := rfl
  by_cases h0 : sq ^ 2 - su ^ 2 = 0 ∧ 2 * r = 0
  · have hDz : discr sq su r = 0 := by
      rw [hD, h0.1, h0.2]
      simp
    constructor
    · rw [hDz, zero_mul, h0.1]
    · rw [hDz, zero_mul, h0.2]
  · have hsum : 0 < (sq ^ 2 - su ^ 2) ^ 2 + (2 * r) ^ 2 := by
      rcases not_and_or.1 h0 with h | h
      · have : (sq ^ 2 - su ^ 2) ^ 2 > 0 := by positivity
        nlinarith [sq_nonneg (2 * r)]
      · have : (2 * r) ^ 2 > 0 := by positivity
        nlinarith [sq_nonneg (sq ^ 2 - su ^ 2)]
    have hDpos : 0 < discr sq su r := by
      rw [hD]; exact Real.sqrt_pos.2 hsum
    constructor
    · rw [hcos, cos_arctan2 _ _ (by tauto), hD]
      field_simp
    · rw [hsin, sin_arctan2, hD]
      field_simp

theorem radq_theta (sq su r : ℝ) :
    radq sq su r (_theta sq su r) = ((sq ^ 2 + su ^ 2) + discr sq su r) / 2 := by
  obtain ⟨hc, hs⟩ := discr_mul_cos_sin sq su r
  have hpy := Real.sin_sq_add_cos_sq (2 * _theta sq su r)
  rw [radq, Real.cos_sq (_theta sq su r), Real.sin_sq (_theta sq su r),
    Real.cos_sq (_theta sq su r)]
  linear_combination (-(Real.cos (2 * _theta sq su r)) / 2) * hc +
    (-(Real.sin (2 * _theta sq su r)) / 2) * hs + (discr sq su r / 2) * hpy

theorem radu_theta (sq su r : ℝ) :
    radu sq su r (_theta sq su r) = ((sq ^ 2 + su ^ 2) - discr sq su r) / 2 := by
  obtain ⟨hc, hs⟩ := discr_mul_cos_sin sq su r
  have hpy := Real.sin_sq_add_cos_sq (2 * _theta sq su r)
  rw [radu, Real.cos_sq (_theta sq su r), Real.sin_sq (_theta sq su r),
    Real.cos_sq (_theta sq su r)]
  linear_combination (Real.cos (2 * _theta sq su r) / 2) * hc +
    (Real.sin (2 * _theta sq su r) / 2) * hs + (-(discr sq su r) / 2) * hpy

/-- Claim C4: for all inputs `sq`, `su`, `rsqsu`, the principal-axis angle
computed by `_theta` equals `(1/2) * atan2 (2*rsqsu) (sq^2 - su^2)` reduced
modulo `π` by the floored modulus, and the returned value lies in `[0, π)`. -/
theorem theta_formula_and_range (sq su rsqsu : ℝ) :
    _theta sq su rsqsu = npmod (0.5 * arctan2 (2 * rsqsu) (sq ^ 2 - su ^ 2)) Real.pi ∧
    0 ≤ _theta sq su rsqsu ∧ _theta sq su rsqsu < Real.pi :=
  ⟨rfl, npmod_nonneg _ _ Real.pi_pos, npmod_lt _ _ Real.pi_pos⟩

/-- Claim C5: for positive-semidefinite noise inputs (`0 ≤ sq`, `0 ≤ su`,
`|rsqsu| ≤ sq * su`) the radicands inside `_sigma_q_prime` and
`_sigma_u_prime` are non-negative at the angle computed by `_theta`, so both
rotated standard deviations are finite non-negative reals and the NaN branch
of the square root is not taken. -/
theorem radicands_nonneg (sq su r : ℝ) (h1 : 0 ≤ sq) (h2 : 0 ≤ su)
    (h3 : |r| ≤ sq * su) :
    0 ≤ radq sq su r (_theta sq su r) ∧ 0 ≤ radu sq su r (_theta sq su r) ∧
    ∃ a b, _sigma_q_prime sq su r (_theta sq su r) = .fin a ∧ 0 ≤ a ∧
      _sigma_u_prime sq su r (_theta sq su r) = .fin b ∧ 0 ≤ b := by
  have hD : discr sq su r ≤ sq ^ 2 + su ^ 2 := by
    have hr2 : r ^ 2 ≤ (sq * su) ^ 2 := by
      nlinarith [mul_self_le_mul_self (abs_nonneg r) h3, sq_abs r]
    have hle : (sq ^ 2 - su ^ 2) ^ 2 + (2 * r) ^ 2 ≤ (sq ^ 2 + su ^ 2) ^ 2 := by
      nlinarith [hr2]
    calc discr sq su r = Real.sqrt ((sq ^ 2 - su ^ 2) ^ 2 + (2 * r) ^ 2) := rfl
      _ ≤ Real.sqrt ((sq ^ 2 + su ^ 2) ^ 2) := Real.sqrt_le_sqrt hle
      _ = sq ^ 2 + su ^ 2 := Real.sqrt_sq (by positivity)
  have hq : 0 ≤ radq sq su r (_theta sq su r) := by
    rw [radq_theta]
    have := discr_nonneg sq su r
    positivity
  have hu : 0 ≤ radu sq su r (_theta sq su r) := by
    rw [radu_theta]; linarith
  refine ⟨hq, hu, Real.sqrt (radq sq su r (_theta sq su r)),
    Real.sqrt (radu sq su r (_theta sq su r)), ?_, Real.sqrt_nonneg _, ?_,
    Real.sqrt_nonneg _⟩
  · rw [_sigma_q_prime, fpSqrtR_of_nonneg _ hq]
  · rw [_sigma_u_prime, fpSqrtR_of_nonneg _ hu]

/-- Witness for C5 at the concrete positive-semidefinite input
`sq = su = 1`, `rsqsu = 0`. -/
theorem radicands_nonneg_witness :
    0 ≤ radq 1 1 0 (_theta 1 1 0) ∧ 0 ≤ radu 1 1 0 (_theta 1 1 0) ∧
    ∃ a b, _sigma_q_prime 1 1 0 (_theta 1 1 0) = .fin a ∧ 0 ≤ a ∧
      _sigma_u_prime 1 1 0 (_theta 1 1 0) = .fin b ∧ 0 ≤ b :=
  radicands_nonneg 1 1 0 (by norm_num) (by norm_num) (by norm_num)

/-! ## Evaluating the bias -/

theorem _bias_nan_left (y : FP) (phi th : ℝ) : _bias .nan y phi th = .nan := by
  rw [_bias, show fpPow2 FP.nan = FP.nan from rfl, fpMul_nan_left, fpAdd_nan_right,
    fpSqrt_nan]

theorem _bias_nan_right (x : FP) (phi th : ℝ) : _bias x .nan phi th = .nan := by
  rw [_bias, show fpPow2 FP.nan = FP.nan from rfl, fpMul_nan_left, fpAdd_nan_left,
    fpSqrt_nan]

theorem _bias_fin_fin (a b : ℝ) (phi th : ℝ) :
    _bias (.fin a) (.fin b) phi th =
      fpSqrtR (b * b * Real.cos (phi - th) ^ 2 + a * a * Real.sin (phi - th) ^ 2) := rfl

theorem biasOf_eval (q u sq su r : ℝ)
    (hq : 0 ≤ radq sq su r (_theta sq su r)) (hu : 0 ≤ radu sq su r (_theta sq su r)) :
    biasOf q u sq su r =
      fpSqrtR (radu sq su r (_theta sq su r) *
          Real.cos (_phi q u - _theta sq su r) ^ 2 +
        radq sq su r (_theta sq su r) *
          Real.sin (_phi q u - _theta sq su r) ^ 2) := by
  rw [biasOf, _sigma_q_prime, _sigma_u_prime, fpSqrtR_of_nonneg _ hq,
    fpSqrtR_of_nonneg _ hu, _bias_fin_fin, Real.mul_self_sqrt hu, Real.mul_self_sqrt hq]

theorem biasOf_nan_of_neg (q u sq su r : ℝ)
    (h : radq sq su r (_theta sq su r) < 0 ∨ radu sq su r (_theta sq su r) < 0) :
    biasOf q u sq su r = .nan := by
  rcases h with h | h
  · rw [biasOf, _sigma_q_prime, fpSqrtR_of_neg _ h, _bias_nan_left]
  · rw [biasOf, _sigma_u_prime, fpSqrtR_of_neg _ h, _bias_nan_right]

/-! ## Evaluating the top-level formula -/

theorem fpDiv_fin_pinf (a : ℝ) : fpDiv (.fin a) .pinf = .fin 0 := rfl

theorem fpPow2_pinf : fpPow2 .pinf = .pinf := rfl

theorem fpPow2_ninf : fpPow2 .ninf = .pinf := rfl

theorem fpMul_pinf_fin_zero : fpMul .pinf (.fin 0) = .nan := by
  show (if (0 : ℝ) = 0 then _ else _) = _
  rw [if_pos rfl]

theorem masFormula_pos_pos (p b : ℝ) (hp : 0 < p) (hb : 0 < b) :
    masFormula (.fin p) (.fin b) =
      .fin (p - b ^ 2 * (1 - Real.exp (-p ^ 2 / b ^ 2)) / 2 / p) := by
  have hb2 : b * b ≠ 0 := by positivity
  have hp0 : p ≠ 0 := ne_of_gt hp
  rw [masFormula, fpPow2_fin, fpPow2_fin, fpNeg_fin, fpDiv_fin_fin _ _ hb2, fpExp_fin,
    fpSub_fin_fin, fpMul_fin_fin, fpDiv_fin_fin _ _ two_ne_zero, fpDiv_fin_fin _ _ hp0,
    fpSub_fin_fin, show -(p * p) / (b * b) = -p ^ 2 / b ^ 2 by ring]
  congr 1
  ring

theorem masFormula_pos_zero (p : ℝ) (hp : 0 < p) :
    masFormula (.fin p) (.fin 0) = .fin p := by
  rw [masFormula, fpPow2_fin, fpPow2_fin, fpNeg_fin, show (0 : ℝ) * 0 = 0 by ring,
    fpDiv_fin_zero_neg _ (neg_lt_zero.2 (mul_pos hp hp)), fpExp_ninf, fpSub_fin_fin,
    fpMul_fin_fin, fpDiv_fin_fin _ _ two_ne_zero, fpDiv_fin_fin _ _ (ne_of_gt hp),
    fpSub_fin_fin]
  congr 1
  ring

theorem masFormula_zero (bias : FP) : masFormula (.fin 0) bias = .nan := by
  cases bias with
  | nan => simp [masFormula]
  | pinf =>
      rw [masFormula, fpPow2_fin, fpPow2_pinf, fpNeg_fin, show -((0 : ℝ) * 0) = 0 by ring,
        fpDiv_fin_pinf, fpExp_fin, Real.exp_zero, fpSub_fin_fin, show (1 : ℝ) - 1 = 0 by ring,
        fpMul_pinf_fin_zero, fpDiv_nan_left, fpDiv_nan_left, fpSub_fin_nan]
  | ninf =>
      rw [masFormula, fpPow2_fin, fpPow2_ninf, fpNeg_fin, show -((0 : ℝ) * 0) = 0 by ring,
        fpDiv_fin_pinf, fpExp_fin, Real.exp_zero,
        fpSub_fin_fin, show (1 : ℝ) - 1 = 0 by ring, fpMul_pinf_fin_zero, fpDiv_nan_left,
        fpDiv_nan_left, fpSub_fin_nan]
  | fin c =>
      by_cases hc : c * c = 0
      · rw [masFormula, fpPow2_fin, fpPow2_fin, fpNeg_fin, hc,
          show -((0 : ℝ) * 0) = 0 by ring, fpDiv_zero_zero, fpExp_nan, fpSub_fin_nan,
          fpMul_nan_right, fpDiv_nan_left, fpDiv_nan_left, fpSub_fin_nan]
      · rw [masFormula, fpPow2_fin, fpPow2_fin, fpNeg_fin, fpDiv_fin_fin _ _ hc,
          show -((0 : ℝ) * 0) / (c * c) = 0 by field_simp, fpExp_fin, Real.exp_zero,
          fpSub_fin_fin, fpMul_fin_fin, fpDiv_fin_fin _ _ two_ne_zero,
          show c * c * (1 - 1) / 2 = 0 by ring, fpDiv_zero_zero, fpSub_fin_nan]

theorem PMAS_def (q u sq su r : ℝ) :
    PMAS q u sq su r = masFormula (_P q u) (biasOf q u sq su r) := rfl

theorem _P_eq (q u : ℝ) : _P q u = .fin (Real.sqrt (q ^ 2 + u ^ 2)) :=
  fpSqrtR_of_nonneg _ (by positivity)

/-- Zero measured signal always produces NaN, whatever the noise inputs. -/
theorem PMAS_zero_signal (sq su r : ℝ) : PMAS 0 0 sq su r = .nan := by
  rw [PMAS_def, _P_eq, show Real.sqrt ((0 : ℝ) ^ 2 + 0 ^ 2) = 0 by simp]
  exact masFormula_zero _

theorem PMAS_eval (q u sq su r p b : ℝ) (hp : Real.sqrt (q ^ 2 + u ^ 2) = p)
    (hp0 : 0 < p) (hb : biasOf q u sq su r = .fin b) (hb0 : 0 < b) :
    PMAS q u sq su r = .fin (p - b ^ 2 * (1 - Real.exp (-p ^ 2 / b ^ 2)) / 2 / p) := by
  rw [PMAS_def, _P_eq, hp, hb, masFormula_pos_pos p b hp0 hb0]

/-! ## Concrete evaluations used by witnesses and counterexamples -/

theorem theta_110 : _theta 1 1 0 = 0 := by
  rw [_theta, show (2 : ℝ) * 0 = 0 by ring, show (1 : ℝ) ^ 2 - 1 ^ 2 = 0 by ring,
    arctan2_zero_zero, mul_zero, npmod_zero_left]

theorem radq_110 : radq 1 1 0 (_theta 1 1 0) = 1 := by
  rw [theta_110, radq]
  simp

theorem radu_110 : radu 1 1 0 (_theta 1 1 0) = 1 := by
  rw [theta_110, radu]
  simp

/-- With isotropic unit noise the pipeline bias is exactly `1`, for any
signal input. -/
theorem biasOf_isotropic (q u : ℝ) : biasOf q u 1 1 0 = .fin 1 := by
  rw [biasOf_eval q u 1 1 0 (by rw [radq_110]; norm_num) (by rw [radu_110]; norm_num),
    radq_110, radu_110, one_mul, one_mul, add_comm,
    Real.sin_sq_add_cos_sq (_phi q u - _theta 1 1 0), fpSqrtR_one]

/-- With identically zero noise the pipeline bias is exactly `0`. -/
theorem biasOf_zero_noise (q u : ℝ) : biasOf q u 0 0 0 = .fin 0 := by
  have hq : radq 0 0 0 (_theta 0 0 0) = 0 := by rw [radq]; ring
  have hu : radu 0 0 0 (_theta 0 0 0) = 0 := by rw [radu]; ring
  rw [biasOf_eval 0 0 0 (q := q) (u := u) (by rw [hq]) (by rw [hu]), hq, hu,
    zero_mul, zero_mul, add_zero, fpSqrtR_zero]

theorem sqrt_one_zero_pos : (0 : ℝ) < Real.sqrt (1 ^ 2 + 0 ^ 2) := by
  rw [show ((1 : ℝ) ^ 2 + 0 ^ 2) = 1 by norm_num, Real.sqrt_one]
  norm_num

/-! ## Claims C1, C2, C3, C6 -/

/-- Claim C1: for inputs with `P = sqrt(Q² + U²) > 0` and pipeline bias
`b > 0`, the estimator returns exactly `P - b² (1 - exp(-P²/b²)) / (2 P)`,
with `P`, `φ`, `θ`, `σ_q'`, `σ_u'`, `b` computed by the six-step pipeline. -/
theorem pmas_closed_form (q u sq su rsqsu b : ℝ)
    (hP : 0 < Real.sqrt (q ^ 2 + u ^ 2))
    (hb : biasOf q u sq su rsqsu = .fin b) (hb0 : 0 < b) :
    PMAS q u sq su rsqsu = .fin (Real.sqrt (q ^ 2 + u ^ 2) -
      b ^ 2 * (1 - Real.exp (-(Real.sqrt (q ^ 2 + u ^ 2)) ^ 2 / b ^ 2)) /
        (2 * Real.sqrt (q ^ 2 + u ^ 2))) := by
  rw [PMAS_eval q u sq su rsqsu _ b rfl hP hb hb0]
  congr 1
  ring

/-- Witness for C1 at the input `(Q, U, σ_q, σ_u, ρσ_qσ_u) = (1, 0, 1, 1, 0)`,
where `P = 1` and `b = 1`. -/
theorem pmas_closed_form_witness :
    0 < Real.sqrt ((1 : ℝ) ^ 2 + 0 ^ 2) ∧ biasOf 1 0 1 1 0 = .fin 1 ∧ (0 : ℝ) < 1 ∧
    PMAS 1 0 1 1 0 = .fin (Real.sqrt ((1 : ℝ) ^ 2 + 0 ^ 2) -
      1 ^ 2 * (1 - Real.exp (-(Real.sqrt ((1 : ℝ) ^ 2 + 0 ^ 2)) ^ 2 / 1 ^ 2)) /
        (2 * Real.sqrt ((1 : ℝ) ^ 2 + 0 ^ 2))) :=
  ⟨sqrt_one_zero_pos, biasOf_isotropic 1 0, one_pos,
    pmas_closed_form 1 0 1 1 0 1 sqrt_one_zero_pos (biasOf_isotropic 1 0) one_pos⟩

/-- Counterexample to Claim C2 as stated: at `Q = U = 0` with pipeline bias
`b = 1 > 0`, `PMAS` returns NaN, not the limiting value `0`. -/
theorem pmas_zero_signal_counterexample :
    biasOf 0 0 1 1 0 = .fin 1 ∧ PMAS 0 0 1 1 0 = FP.nan ∧ FP.nan ≠ FP.fin 0 :=
  ⟨biasOf_isotropic 0 0, PMAS_zero_signal 1 1 0, fun h => FP.noConfusion h⟩

/-- Claim C2 (amended): for `Q = U = 0` and strictly positive pipeline bias
`b`, `PMAS` returns NaN — the final expression divides `0` by `P = 0` — and
not the limiting value `0`. -/
theorem pmas_zero_signal_nan (sq su rsqsu b : ℝ)
    (hb : biasOf 0 0 sq su rsqsu = .fin b) (hb0 : 0 < b) :
    PMAS 0 0 sq su rsqsu = FP.nan :=
  PMAS_zero_signal sq su rsqsu

/-- Witness for the amended C2 at `σ_q = σ_u = 1`, `ρσ_qσ_u = 0`, `b = 1`. -/
theorem pmas_zero_signal_nan_witness :
    biasOf 0 0 1 1 0 = .fin 1 ∧ (0 : ℝ) < 1 ∧ PMAS 0 0 1 1 0 = FP.nan :=
  ⟨biasOf_isotropic 0 0, one_pos,
    pmas_zero_signal_nan 1 1 0 1 (biasOf_isotropic 0 0) one_pos⟩

/-- Claim C3 (amended): with zero noise (`σ_q = σ_u = ρσ_qσ_u = 0`, hence
`b = 0`) and `(Q, U) ≠ (0, 0)`, `PMAS` returns exactly `P = sqrt(Q² + U²)`
with no bias correction: the intermediate `exp(-P²/0)` evaluates to
`exp(-inf) = 0` and the correction term vanishes.  (At `Q = U = 0` the code
instead returns NaN, see the counterexample.) -/
theorem pmas_zero_noise (q u : ℝ) (h : q ^ 2 + u ^ 2 ≠ 0) :
    PMAS q u 0 0 0 = .fin (Real.sqrt (q ^ 2 + u ^ 2)) := by
  have hp : 0 < Real.sqrt (q ^ 2 + u ^ 2) :=
    Real.sqrt_pos.2 (lt_of_le_of_ne (by positivity) (Ne.symm h))
  rw [PMAS_def, _P_eq, biasOf_zero_noise, masFormula_pos_zero _ hp]

/-- Witness for the amended C3 at `(Q, U) = (1, 0)`. -/
theorem pmas_zero_noise_witness :
    ((1 : ℝ) ^ 2 + 0 ^ 2 ≠ 0) ∧ PMAS 1 0 0 0 0 = .fin (Real.sqrt ((1 : ℝ) ^ 2 + 0 ^ 2)) :=
  ⟨by norm_num, pmas_zero_noise 1 0 (by norm_num)⟩

/-- Counterexample to Claim C3 as stated: with zero noise but `Q = U = 0`
(`arbitrary Q, U` includes this point), `PMAS` returns NaN, not `P = 0`. -/
theorem pmas_zero_noise_counterexample :
    PMAS 0 0 0 0 0 = FP.nan ∧ FP.nan ≠ FP.fin (Real.sqrt ((0 : ℝ) ^ 2 + 0 ^ 2)) :=
  ⟨PMAS_zero_signal 0 0 0, fun h => FP.noConfusion h⟩

/-- Claim C6: for `P > 0` and pipeline bias `b > 0` the output lies between
the first-order asymptotic form and the naive estimator,
`P - b²/(2P) ≤ P_MAS ≤ P`, and the gap to the first-order form is exactly
the exponentially small remainder `b² exp(-P²/b²) / (2P)`. -/
theorem pmas_bounds (q u sq su rsqsu b : ℝ)
    (hP : 0 < Real.sqrt (q ^ 2 + u ^ 2))
    (hb : biasOf q u sq su rsqsu = .fin b) (hb0 : 0 < b) :
    ∃ v, PMAS q u sq su rsqsu = .fin v ∧
      Real.sqrt (q ^ 2 + u ^ 2) - b ^ 2 / (2 * Real.sqrt (q ^ 2 + u ^ 2)) ≤ v ∧
      v ≤ Real.sqrt (q ^ 2 + u ^ 2) ∧
      v - (Real.sqrt (q ^ 2 + u ^ 2) - b ^ 2 / (2 * Real.sqrt (q ^ 2 + u ^ 2))) =
        b ^ 2 * Real.exp (-(Real.sqrt (q ^ 2 + u ^ 2)) ^ 2 / b ^ 2) /
          (2 * Real.sqrt (q ^ 2 + u ^ 2)) := by
  set p := Real.sqrt (q ^ 2 + u ^ 2) with hpdef
  set E := Real.exp (-p ^ 2 / b ^ 2) with hEdef
  have hE0 : 0 < E := Real.exp_pos _
  have hE1 : E ≤ 1 := by
    rw [hEdef]
    rw [Real.exp_le_one_iff, neg_div]
    have : 0 ≤ p ^ 2 / b ^ 2 := by positivity
    linarith
  refine ⟨p - b ^ 2 * (1 - E) / 2 / p, PMAS_eval q u sq su rsqsu p b rfl hP hb hb0,
    ?_, ?_, ?_⟩
  · have h2p : (0 : ℝ) < 2 * p := by linarith
    rw [div_div]
    have : b ^ 2 * (1 - E) / (2 * p) ≤ b ^ 2 / (2 * p) :=
      (div_le_div_right h2p).2 (by nlinarith [sq_nonneg b])
    linarith
  · have hnum : 0 ≤ b ^ 2 * (1 - E) := by nlinarith [sq_nonneg b]
    have : 0 ≤ b ^ 2 * (1 - E) / 2 / p := by positivity
    linarith
  · have hp0 : p ≠ 0 := ne_of_gt hP
    have hb2 : b ≠ 0 := ne_of_gt hb0
    field_simp
    ring

/-- Witness for C6 at the input `(1, 0, 1, 1, 0)` with `P = 1`, `b = 1`. -/
theorem pmas_bounds_witness :
    ∃ v, PMAS 1 0 1 1 0 = .fin v ∧
      Real.sqrt ((1 : ℝ) ^ 2 + 0 ^ 2) - 1 ^ 2 / (2 * Real.sqrt ((1 : ℝ) ^ 2 + 0 ^ 2)) ≤ v ∧
      v ≤ Real.sqrt ((1 : ℝ) ^ 2 + 0 ^ 2) ∧
      v - (Real.sqrt ((1 : ℝ) ^ 2 + 0 ^ 2) -
          1 ^ 2 / (2 * Real.sqrt ((1 : ℝ) ^ 2 + 0 ^ 2))) =
        1 ^ 2 * Real.exp (-(Real.sqrt ((1 : ℝ) ^ 2 + 0 ^ 2)) ^ 2 / 1 ^ 2) /
          (2 * Real.sqrt ((1 : ℝ) ^ 2 + 0 ^ 2)) :=
  pmas_bounds 1 0 1 1 0 1 sqrt_one_zero_pos (biasOf_isotropic 1 0) one_pos

/-! ## Claim C9: global sign flip of the Stokes vector -/

/-- Claim C9 (implicit): `PMAS` is invariant under a global sign flip of the
Stokes vector: `PMAS (-Q) (-U) σ_q σ_u ρσ_qσ_u = PMAS Q U σ_q σ_u ρσ_qσ_u`.
`P` is unchanged and the bias depends on `φ` only through
`cos²(φ - θ)` and `sin²(φ - θ)`, which are invariant under the half-turn
shift of `φ = atan2 U Q`. -/
theorem pmas_sign_flip (q u sq su r : ℝ) :
    PMAS (-q) (-u) sq su r = PMAS q u sq su r := by
  by_cases h : q = 0 ∧ u = 0
  · obtain ⟨hq, hu⟩ := h
    subst hq; subst hu
    rw [neg_zero]
  · have h' : ¬(-q = 0 ∧ -u = 0) := by simpa using h
    have hX : ((-q) : ℝ) ^ 2 + (-u) ^ 2 = q ^ 2 + u ^ 2 := by ring
    have hc : Real.cos (_phi (-q) (-u)) = -Real.cos (_phi q u) := by
      rw [_phi, _phi, cos_arctan2 _ _ h', cos_arctan2 _ _ h, hX, neg_div]
    have hsn : Real.sin (_phi (-q) (-u)) = -Real.sin (_phi q u) := by
      rw [_phi, _phi, sin_arctan2, sin_arctan2, hX, neg_div]
    have hcc : ∀ th : ℝ,
        Real.cos (_phi (-q) (-u) - th) ^ 2 = Real.cos (_phi q u - th) ^ 2 := by
      intro th
      rw [Real.cos_sub, Real.cos_sub, hc, hsn]
      ring
    have hss : ∀ th : ℝ,
        Real.sin (_phi (-q) (-u) - th) ^ 2 = Real.sin (_phi q u - th) ^ 2 := by
      intro th
      rw [Real.sin_sub, Real.sin_sub, hc, hsn]
      ring
    rw [PMAS_def, PMAS_def]
    have hP' : _P (-q) (-u) = _P q u := by rw [_P, _P, hX]
    have hB' : biasOf (-q) (-u) sq su r = biasOf q u sq su r := by
      rw [biasOf, biasOf, _bias, _bias, hcc, hss]
    rw [hP', hB']

/-! ## Claim C10: positive homogeneity -/

theorem arctan2_smul (l y x : ℝ) (hl : 0 < l) : arctan2 (l * y) (l * x) = arctan2 y x := by
  have h : (⟨l * x, l * y⟩ : ℂ) = (l : ℂ) * ⟨x, y⟩ := by
    apply Complex.ext
    · simp [Complex.mul_re]
    · simp [Complex.mul_im]
  rw [arctan2, arctan2, h, Complex.arg_real_mul _ hl]

theorem theta_scale (l sq su r : ℝ) (hl : 0 < l) :
    _theta (l * sq) (l * su) (l ^ 2 * r) = _theta sq su r := by
  rw [_theta, _theta, show 2 * (l ^ 2 * r) = l ^ 2 * (2 * r) by ring,
    show (l * sq) ^ 2 - (l * su) ^ 2 = l ^ 2 * (sq ^ 2 - su ^ 2) by ring,
    arctan2_smul _ _ _ (by positivity)]

theorem radq_scale (l sq su r th : ℝ) :
    radq (l * sq) (l * su) (l ^ 2 * r) th = l ^ 2 * radq sq su r th := by
  simp only [radq]
  ring

theorem radu_scale (l sq su r th : ℝ) :
    radu (l * sq) (l * su) (l ^ 2 * r) th = l ^ 2 * radu sq su r th := by
  simp only [radu]
  ring

theorem radicands_nonneg_of_bias_fin (q u sq su r b : ℝ)
    (hb : biasOf q u sq su r = .fin b) :
    0 ≤ radq sq su r (_theta sq su r) ∧ 0 ≤ radu sq su r (_theta sq su r) := by
  by_cases h : radq sq su r (_theta sq su r) < 0 ∨ radu sq su r (_theta sq su r) < 0
  · rw [biasOf_nan_of_neg q u sq su r h] at hb
    exact absurd hb (fun hx => FP.noConfusion hx)
  · push_neg at h
    exact h

/-- Claim C10 (implicit): `PMAS` is positively homogeneous of degree one:
for `λ > 0` and inputs with `P > 0` and pipeline bias `b > 0`,
`PMAS (λQ) (λU) (λσ_q) (λσ_u) (λ²ρσ_qσ_u) = λ * PMAS Q U σ_q σ_u ρσ_qσ_u`
(`θ` is scale invariant while `P`, `σ_q'`, `σ_u'`, `b` scale linearly);
both sides are spelled out as finite values. -/
theorem pmas_scale (l q u sq su r p b : ℝ) (hl : 0 < l)
    (hp : Real.sqrt (q ^ 2 + u ^ 2) = p) (hP : 0 < p)
    (hb : biasOf q u sq su r = .fin b) (hb0 : 0 < b) :
    PMAS q u sq su r = .fin (p - b ^ 2 * (1 - Real.exp (-p ^ 2 / b ^ 2)) / 2 / p) ∧
    PMAS (l * q) (l * u) (l * sq) (l * su) (l ^ 2 * r) =
      .fin (l * (p - b ^ 2 * (1 - Real.exp (-p ^ 2 / b ^ 2)) / 2 / p)) := by
  obtain ⟨hq0, hu0⟩ := radicands_nonneg_of_bias_fin q u sq su r b hb
  have hB0 : 0 ≤ radu sq su r (_theta sq su r) *
      Real.cos (_phi q u - _theta sq su r) ^ 2 +
      radq sq su r (_theta sq su r) * Real.sin (_phi q u - _theta sq su r) ^ 2 :=
    add_nonneg (mul_nonneg hu0 (sq_nonneg _)) (mul_nonneg hq0 (sq_nonneg _))
  have hbv : Real.sqrt (radu sq su r (_theta sq su r) *
      Real.cos (_phi q u - _theta sq su r) ^ 2 +
      radq sq su r (_theta sq su r) * Real.sin (_phi q u - _theta sq su r) ^ 2) = b := by
    have h1 := biasOf_eval q u sq su r hq0 hu0
    rw [hb, fpSqrtR_of_nonneg _ hB0] at h1
    exact (FP.fin.inj h1).symm
  -- the scaled pipeline
  have hθ := theta_scale l sq su r hl
  have hφ : _phi (l * q) (l * u) = _phi q u := by
    rw [_phi, _phi, arctan2_smul l u q hl]
  have hrq : radq (l * sq) (l * su) (l ^ 2 * r)
      (_theta (l * sq) (l * su) (l ^ 2 * r)) =
      l ^ 2 * radq sq su r (_theta sq su r) := by rw [hθ, radq_scale]
  have hru : radu (l * sq) (l * su) (l ^ 2 * r)
      (_theta (l * sq) (l * su) (l ^ 2 * r)) =
      l ^ 2 * radu sq su r (_theta sq su r) := by rw [hθ, radu_scale]
  have hq0' : 0 ≤ radq (l * sq) (l * su) (l ^ 2 * r)
      (_theta (l * sq) (l * su) (l ^ 2 * r)) := by
    rw [hrq]; exact mul_nonneg (by positivity) hq0
  have hu0' : 0 ≤ radu (l * sq) (l * su) (l ^ 2 * r)
      (_theta (l * sq) (l * su) (l ^ 2 * r)) := by
    rw [hru]; exact mul_nonneg (by positivity) hu0
  have hb' : biasOf (l * q) (l * u) (l * sq) (l * su) (l ^ 2 * r) = .fin (l * b) := by
    have h2 := biasOf_eval (l * q) (l * u) (l * sq) (l * su) (l ^ 2 * r) hq0' hu0'
    rw [hrq, hru, hθ, hφ,
      show l ^ 2 * radu sq su r (_theta sq su r) *
          Real.cos (_phi q u - _theta sq su r) ^ 2 +
          l ^ 2 * radq sq su r (_theta sq su r) *
          Real.sin (_phi q u - _theta sq su r) ^ 2 =
        l ^ 2 * (radu sq su r (_theta sq su r) *
          Real.cos (_phi q u - _theta sq su r) ^ 2 +
          radq sq su r (_theta sq su r) *
          Real.sin (_phi q u - _theta sq su r) ^ 2) by ring,
      fpSqrtR_of_nonneg _ (mul_nonneg (by positivity) hB0),
      Real.sqrt_mul (by positivity) _, Real.sqrt_sq hl.le, hbv] at h2
    exact h2
  have hp' : Real.sqrt ((l * q) ^ 2 + (l * u) ^ 2) = l * p := by
    rw [show (l * q) ^ 2 + (l * u) ^ 2 = l ^ 2 * (q ^ 2 + u ^ 2) by ring,
      Real.sqrt_mul (by positivity) _, Real.sqrt_sq hl.le, hp]
  refine ⟨PMAS_eval q u sq su r p b hp hP hb hb0, ?_⟩
  rw [PMAS_eval (l * q) (l * u) (l * sq) (l * su) (l ^ 2 * r) (l * p) (l * b)
    hp' (by positivity) hb' (by positivity)]
  congr 1
  have hl0 : l ≠ 0 := ne_of_gt hl
  have hbne : b ≠ 0 := ne_of_gt hb0
  have hpne : p ≠ 0 := ne_of_gt hP
  rw [show -(l * p) ^ 2 / (l * b) ^ 2 = -p ^ 2 / b ^ 2 by field_simp; ring]
  field_simp
  ring

/-! ## Claim C7: the Q/U swap symmetry -/

theorem bias_closed_aux (S D C X R : ℝ) (h : X ≠ 0) (hDCX : D * C * X = R) :
    ((S - D) / 2) * (1 / 2 + C / 2) + ((S + D) / 2) * (1 - (1 / 2 + C / 2)) =
      S / 2 - R / (2 * X) := by
  field_simp
  linear_combination (-8 : ℝ) * hDCX

/-- Closed form of the radicand of the bias for nonzero signal: the angles
`φ` and `θ` can be eliminated entirely. -/
theorem bias_radicand_closed (q u sq su r : ℝ) (h : q ^ 2 + u ^ 2 ≠ 0) :
    radu sq su r (_theta sq su r) * Real.cos (_phi q u - _theta sq su r) ^ 2 +
      radq sq su r (_theta sq su r) * Real.sin (_phi q u - _theta sq su r) ^ 2 =
    (sq ^ 2 + su ^ 2) / 2 -
      ((sq ^ 2 - su ^ 2) * (q ^ 2 - u ^ 2) + 4 * r * q * u) / (2 * (q ^ 2 + u ^ 2)) := by
  have hX0 : 0 < q ^ 2 + u ^ 2 := lt_of_le_of_ne (by positivity) (Ne.symm h)
  have hqu : ¬(q = 0 ∧ u = 0) := by
    rintro ⟨rfl, rfl⟩
    norm_num at h
  have hcosφ : Real.cos (_phi q u) = q / Real.sqrt (q ^ 2 + u ^ 2) := by
    rw [_phi, cos_arctan2 u q hqu]
  have hsinφ : Real.sin (_phi q u) = u / Real.sqrt (q ^ 2 + u ^ 2) := by
    rw [_phi, sin_arctan2]
  have hss : Real.sqrt (q ^ 2 + u ^ 2) ^ 2 = q ^ 2 + u ^ 2 := Real.sq_sqrt hX0.le
  have hsne : Real.sqrt (q ^ 2 + u ^ 2) ≠ 0 := by
    intro h0
    rw [h0] at hss
    exact h (by linarith [hss])
  have h2cos : Real.cos (2 * _phi q u) = (q ^ 2 - u ^ 2) / (q ^ 2 + u ^ 2) := by
    rw [Real.cos_two_mul, hcosφ, div_pow, hss]
    field_simp
    ring
  have h2sin : Real.sin (2 * _phi q u) = 2 * q * u / (q ^ 2 + u ^ 2) := by
    rw [Real.sin_two_mul, hsinφ, hcosφ,
      show 2 * (u / Real.sqrt (q ^ 2 + u ^ 2)) * (q / Real.sqrt (q ^ 2 + u ^ 2)) =
        2 * q * u / (Real.sqrt (q ^ 2 + u ^ 2) * Real.sqrt (q ^ 2 + u ^ 2)) by ring,
      Real.mul_self_sqrt hX0.le]
  obtain ⟨hc2, hs2⟩ := discr_mul_cos_sin sq su r
  have hC : Real.cos (2 * (_phi q u - _theta sq su r)) =
      ((q ^ 2 - u ^ 2) * Real.cos (2 * _theta sq su r) +
        (2 * q * u) * Real.sin (2 * _theta sq su r)) / (q ^ 2 + u ^ 2) := by
    rw [show 2 * (_phi q u - _theta sq su r) =
      2 * _phi q u - 2 * _theta sq su r by ring, Real.cos_sub, h2cos, h2sin]
    ring
  have hDCX : discr sq su r * Real.cos (2 * (_phi q u - _theta sq su r)) *
      (q ^ 2 + u ^ 2) =
      (sq ^ 2 - su ^ 2) * (q ^ 2 - u ^ 2) + 4 * r * q * u := by
    rw [hC]
    field_simp
    linear_combination (q ^ 2 - u ^ 2) * hc2 + (2 * q * u) * hs2
  rw [radq_theta, radu_theta, Real.sin_sq (_phi q u - _theta sq su r),
    Real.cos_sq (_phi q u - _theta sq su r)]
  exact bias_closed_aux (sq ^ 2 + su ^ 2) (discr sq su r)
    (Real.cos (2 * (_phi q u - _theta sq su r))) (q ^ 2 + u ^ 2)
    ((sq ^ 2 - su ^ 2) * (q ^ 2 - u ^ 2) + 4 * r * q * u) h hDCX

/-- The bias is invariant under exchanging `Q ↔ U` and `σ_q ↔ σ_u` with the
covariance term kept unchanged, for nonzero signal. -/
theorem biasOf_swap (q u sq su r : ℝ) (h : q ^ 2 + u ^ 2 ≠ 0) :
    biasOf u q su sq r = biasOf q u sq su r := by
  have hdisc : discr su sq r = discr sq su r := by
    rw [discr, discr]
    congr 1
    ring
  have hrq : radq su sq r (_theta su sq r) = radq sq su r (_theta sq su r) := by
    rw [radq_theta, radq_theta, hdisc]
    ring
  have hru : radu su sq r (_theta su sq r) = radu sq su r (_theta sq su r) := by
    rw [radu_theta, radu_theta, hdisc]
    ring
  by_cases hneg : radq sq su r (_theta sq su r) < 0 ∨ radu sq su r (_theta sq su r) < 0
  · have hneg' : radq su sq r (_theta su sq r) < 0 ∨
        radu su sq r (_theta su sq r) < 0 := by
      rw [hrq, hru]
      exact hneg
    rw [biasOf_nan_of_neg _ _ _ _ _ hneg', biasOf_nan_of_neg _ _ _ _ _ hneg]
  · push_neg at hneg
    obtain ⟨hq0, hu0⟩ := hneg
    have hq0' : 0 ≤ radq su sq r (_theta su sq r) := by rw [hrq]; exact hq0
    have hu0' : 0 ≤ radu su sq r (_theta su sq r) := by rw [hru]; exact hu0
    rw [biasOf_eval u q su sq r hq0' hu0', biasOf_eval q u sq su r hq0 hu0]
    congr 1
    rw [bias_radicand_closed u q su sq r (by rwa [show u ^ 2 + q ^ 2 = q ^ 2 + u ^ 2
      by ring]), bias_radicand_closed q u sq su r h]
    rw [show u ^ 2 + q ^ 2 = q ^ 2 + u ^ 2 by ring]
    ring

/-- Claim C7 (amended): exchanging `Q` with `U` and `σ_q` with `σ_u` while
KEEPING the covariance term unchanged yields the same estimate:
`PMAS U Q σ_u σ_q ρσ_qσ_u = PMAS Q U σ_q σ_u ρσ_qσ_u` for all inputs.
(With the covariance negated, as the original claim stated, the outputs
differ in general — see the counterexample.) -/
theorem pmas_swap (q u sq su r : ℝ) : PMAS u q su sq r = PMAS q u sq su r := by
  by_cases h : q ^ 2 + u ^ 2 = 0
  · have hq : q = 0 := by nlinarith [sq_nonneg q, sq_nonneg u]
    have hu : u = 0 := by nlinarith [sq_nonneg q, sq_nonneg u]
    subst hq; subst hu
    rw [PMAS_zero_signal, PMAS_zero_signal]
  · rw [PMAS_def, PMAS_def]
    have hP' : _P u q = _P q u := by
      rw [_P, _P]
      exact congrArg fpSqrtR (by ring)
    rw [hP', biasOf_swap q u sq su r h]

/-- Counterexample to Claim C7 as stated: at
`(Q, U, σ_q, σ_u, ρσ_qσ_u) = (1, 1, 1, 1, 1/2)` the claimed identity
`PMAS U Q σ_u σ_q (-ρσ_qσ_u) = PMAS Q U σ_q σ_u ρσ_qσ_u` fails: the left
side has bias `sqrt(3/2)`, the right side bias `sqrt(1/2)`, and the two
outputs are different finite reals. -/
theorem pmas_swap_neg_counterexample :
    PMAS 1 1 1 1 (-(1 / 2)) ≠ PMAS 1 1 1 1 (1 / 2) := by
  have hD : discr 1 1 (1 / 2 : ℝ) = 1 := by
    rw [discr, show (((1 : ℝ) ^ 2 - 1 ^ 2) ^ 2 + (2 * (1 / 2)) ^ 2) = 1 by norm_num,
      Real.sqrt_one]
  have hDm : discr 1 1 (-(1 / 2) : ℝ) = 1 := by
    rw [discr, show (((1 : ℝ) ^ 2 - 1 ^ 2) ^ 2 + (2 * (-(1 / 2))) ^ 2) = 1 by norm_num,
      Real.sqrt_one]
  have hq1 : 0 ≤ radq 1 1 (1 / 2 : ℝ) (_theta 1 1 (1 / 2)) := by
    rw [radq_theta, hD]; norm_num
  have hu1 : 0 ≤ radu 1 1 (1 / 2 : ℝ) (_theta 1 1 (1 / 2)) := by
    rw [radu_theta, hD]; norm_num
  have hq2 : 0 ≤ radq 1 1 (-(1 / 2) : ℝ) (_theta 1 1 (-(1 / 2))) := by
    rw [radq_theta, hDm]; norm_num
  have hu2 : 0 ≤ radu 1 1 (-(1 / 2) : ℝ) (_theta 1 1 (-(1 / 2))) := by
    rw [radu_theta, hDm]; norm_num
  have hb1 : biasOf 1 1 1 1 (1 / 2 : ℝ) = .fin (Real.sqrt (1 / 2)) := by
    rw [biasOf_eval 1 1 1 1 (1 / 2) hq1 hu1,
      bias_radicand_closed 1 1 1 1 (1 / 2) (by norm_num),
      show ((1 : ℝ) ^ 2 + 1 ^ 2) / 2 -
        (((1 : ℝ) ^ 2 - 1 ^ 2) * (1 ^ 2 - 1 ^ 2) + 4 * (1 / 2) * 1 * 1) /
          (2 * ((1 : ℝ) ^ 2 + 1 ^ 2)) = 1 / 2 by norm_num,
      fpSqrtR_of_nonneg _ (by norm_num)]
  have hb2 : biasOf 1 1 1 1 (-(1 / 2) : ℝ) = .fin (Real.sqrt (3 / 2)) := by
    rw [biasOf_eval 1 1 1 1 (-(1 / 2)) hq2 hu2,
      bias_radicand_closed 1 1 1 1 (-(1 / 2)) (by norm_num),
      show ((1 : ℝ) ^ 2 + 1 ^ 2) / 2 -
        (((1 : ℝ) ^ 2 - 1 ^ 2) * (1 ^ 2 - 1 ^ 2) + 4 * (-(1 / 2)) * 1 * 1) /
          (2 * ((1 : ℝ) ^ 2 + 1 ^ 2)) = 3 / 2 by norm_num,
      fpSqrtR_of_nonneg _ (by norm_num)]
  have hp : Real.sqrt ((1 : ℝ) ^ 2 + 1 ^ 2) = Real.sqrt 2 := by norm_num
  have hp0 : (0 : ℝ) < Real.sqrt 2 := Real.sqrt_pos.2 (by norm_num)
  have hb10 : (0 : ℝ) < Real.sqrt (1 / 2) := Real.sqrt_pos.2 (by norm_num)
  have hb20 : (0 : ℝ) < Real.sqrt (3 / 2) := Real.sqrt_pos.2 (by norm_num)
  have e1 : PMAS 1 1 1 1 (1 / 2 : ℝ) =
      .fin (Real.sqrt 2 - 1 / 2 * (1 - Real.exp (-4)) / 2 / Real.sqrt 2) := by
    rw [PMAS_eval 1 1 1 1 (1 / 2) (Real.sqrt 2) (Real.sqrt (1 / 2)) hp hp0 hb1 hb10]
    congr 1
    rw [Real.sq_sqrt (show (0 : ℝ) ≤ 1 / 2 by norm_num),
      Real.sq_sqrt (show (0 : ℝ) ≤ 2 by norm_num)]
    norm_num
  have e2 : PMAS 1 1 1 1 (-(1 / 2) : ℝ) =
      .fin (Real.sqrt 2 - 3 / 2 * (1 - Real.exp (-4 / 3)) / 2 / Real.sqrt 2) := by
    rw [PMAS_eval 1 1 1 1 (-(1 / 2)) (Real.sqrt 2) (Real.sqrt (3 / 2)) hp hp0 hb2 hb20]
    congr 1
    rw [Real.sq_sqrt (show (0 : ℝ) ≤ 3 / 2 by norm_num),
      Real.sq_sqrt (show (0 : ℝ) ≤ 2 by norm_num)]
    norm_num
  rw [e1, e2]
  have hexp1 : (2 : ℝ) < Real.exp 1 := by linarith [Real.exp_one_gt_d9]
  have hmulinv : Real.exp (-1 : ℝ) * Real.exp 1 = 1 := by
    rw [← Real.exp_add]; norm_num
  have he1 : Real.exp (-1 : ℝ) < 1 / 2 := by nlinarith [Real.exp_pos (-1 : ℝ)]
  have he43 : Real.exp (-4 / 3 : ℝ) < 1 / 2 :=
    lt_of_le_of_lt (Real.exp_le_exp.2 (by norm_num)) he1
  have he4 : (0 : ℝ) < Real.exp (-4 : ℝ) := Real.exp_pos _
  have hlt : Real.sqrt 2 - 3 / 2 * (1 - Real.exp (-4 / 3)) / 2 / Real.sqrt 2 <
      Real.sqrt 2 - 1 / 2 * (1 - Real.exp (-4)) / 2 / Real.sqrt 2 := by
    have h1 : (1 : ℝ) / 2 * (1 - Real.exp (-4)) / 2 / Real.sqrt 2 <
        3 / 2 * (1 - Real.exp (-4 / 3)) / 2 / Real.sqrt 2 := by
      rw [div_div, div_div]
      exact (div_lt_div_right (by positivity)).2 (by linarith)
    linarith
  intro heq
  exact absurd (FP.fin.inj heq) (ne_of_lt hlt)

/-! ## Claim C8: elementwise independence of the batched estimator -/

theorem zipWith_getElem?_some (f : α → β → γ) (as : List α) (bs : List β) (k : ℕ)
    (a : α) (b : β) (ha : as[k]? = some a) (hb : bs[k]? = some b) :
    (List.zipWith f as bs)[k]? = some (f a b) := by
  induction as generalizing bs k with
  | nil => simp at ha
  | cons x xs ih =>
    cases bs with
    | nil => simp at hb
    | cons y ys =>
      cases k with
      | zero =>
        simp only [List.getElem?_cons_zero, Option.some.injEq] at ha hb
        subst ha; subst hb
        simp
      | succ k =>
        simp only [List.getElem?_cons_succ] at ha hb
        simpa using ih ys k ha hb

theorem zipWith3_getElem?_some (f : α → β → γ → δ) (as : List α) (bs : List β)
    (cs : List γ) (k : ℕ) (a : α) (b : β) (c : γ)
    (ha : as[k]? = some a) (hb : bs[k]? = some b) (hc : cs[k]? = some c) :
    (zipWith3 f as bs cs)[k]? = some (f a b c) := by
  induction as generalizing bs cs k with
  | nil => simp at ha
  | cons x xs ih =>
    cases bs with
    | nil => simp at hb
    | cons y ys =>
      cases cs with
      | nil => simp at hc
      | cons z zs =>
        cases k with
        | zero =>
          simp only [List.getElem?_cons_zero, Option.some.injEq] at ha hb hc
          subst ha; subst hb; subst hc
          simp [zipWith3]
        | succ k =>
          simp only [List.getElem?_cons_succ] at ha hb hc
          simpa [zipWith3] using ih ys zs k ha hb hc

theorem zipWith4_getElem?_some (f : α → β → γ → δ → ε) (as : List α) (bs : List β)
    (cs : List γ) (ds : List δ) (k : ℕ) (a : α) (b : β) (c : γ) (d : δ)
    (ha : as[k]? = some a) (hb : bs[k]? = some b) (hc : cs[k]? = some c)
    (hd : ds[k]? = some d) :
    (zipWith4 f as bs cs ds)[k]? = some (f a b c d) := by
  induction as generalizing bs cs ds k with
  | nil => simp at ha
  | cons x xs ih =>
    cases bs with
    | nil => simp at hb
    | cons y ys =>
      cases cs with
      | nil => simp at hc
      | cons z zs =>
        cases ds with
        | nil => simp at hd
        | cons w ws =>
          cases k with
          | zero =>
            simp only [List.getElem?_cons_zero, Option.some.injEq] at ha hb hc hd
            subst ha; subst hb; subst hc; subst hd
            simp [zipWith4]
          | succ k =>
            simp only [List.getElem?_cons_succ] at ha hb hc hd
            simpa [zipWith4] using ih ys zs ws k ha hb hc hd

/-- Element `k` of the batched estimator is the scalar estimator applied to
the index-`k` components of the five inputs. -/
theorem PMASV_getElem? (qs us sqs sus rs : List ℝ) (k : ℕ) (a b c d e : ℝ)
    (hq : qs[k]? = some a) (hu : us[k]? = some b) (hsq : sqs[k]? = some c)
    (hsu : sus[k]? = some d) (hr : rs[k]? = some e) :
    (PMASV qs us sqs sus rs)[k]? = some (PMAS a b c d e) := by
  have hth := zipWith3_getElem?_some _theta sqs sus rs k c d e hsq hsu hr
  have hsqp := zipWith4_getElem?_some _sigma_q_prime sqs sus rs
    (_thetaV sqs sus rs) k c d e (_theta c d e) hsq hsu hr hth
  have hsup := zipWith4_getElem?_some _sigma_u_prime sqs sus rs
    (_thetaV sqs sus rs) k c d e (_theta c d e) hsq hsu hr hth
  have hphi := zipWith_getElem?_some _phi qs us k a b hq hu
  have hbias := zipWith4_getElem?_some _bias
    (_sigma_q_primeV sqs sus rs (_thetaV sqs sus rs))
    (_sigma_u_primeV sqs sus rs (_thetaV sqs sus rs))
    (_phiV qs us) (_thetaV sqs sus rs) k
    (_sigma_q_prime c d e (_theta c d e)) (_sigma_u_prime c d e (_theta c d e))
    (_phi a b) (_theta c d e) hsqp hsup hphi hth
  have hP := zipWith_getElem?_some _P qs us k a b hq hu
  exact zipWith_getElem?_some masFormula (_PV qs us)
    (_biasV (_sigma_q_primeV sqs sus rs (_thetaV sqs sus rs))
      (_sigma_u_primeV sqs sus rs (_thetaV sqs sus rs))
      (_phiV qs us) (_thetaV sqs sus rs)) k
    (_P a b)
    (_bias (_sigma_q_prime c d e (_theta c d e)) (_sigma_u_prime c d e (_theta c d e))
      (_phi a b) (_theta c d e)) hP hbias

/-- Claim C8: for batched inputs, element `k` of the output of `PMAS` is a
function of the five inputs at index `k` only: two batches that agree at
index `k` (however much they differ elsewhere, including degenerate
NaN-producing entries) give the same output at index `k`, namely the scalar
estimate of the index-`k` components. -/
theorem pmasv_elementwise (qs us sqs sus rs qs' us' sqs' sus' rs' : List ℝ)
    (k : ℕ) (a b c d e : ℝ)
    (hq : qs[k]? = some a) (hu : us[k]? = some b) (hsq : sqs[k]? = some c)
    (hsu : sus[k]? = some d) (hr : rs[k]? = some e)
    (hq' : qs'[k]? = some a) (hu' : us'[k]? = some b) (hsq' : sqs'[k]? = some c)
    (hsu' : sus'[k]? = some d) (hr' : rs'[k]? = some e) :
    (PMASV qs us sqs sus rs)[k]? = some (PMAS a b c d e) ∧
    (PMASV qs' us' sqs' sus' rs')[k]? = some (PMAS a b c d e) ∧
    (PMASV qs us sqs sus rs)[k]? = (PMASV qs' us' sqs' sus' rs')[k]? := by
  have h1 := PMASV_getElem? qs us sqs sus rs k a b c d e hq hu hsq hsu hr
  have h2 := PMASV_getElem? qs' us' sqs' sus' rs' k a b c d e hq' hu' hsq' hsu' hr'
  exact ⟨h1, h2, h1.trans h2.symm⟩

/-- Witness for C8: the clean batch `[(1,0,1,1,0), (1,0,1,1,0)]` and a batch
that is identical at index 0 but carries the degenerate (negative-radicand,
NaN-producing) sample `(1,0,0,0,1)` at index 1 produce the same element 0. -/
theorem pmasv_elementwise_witness :
    (PMASV [1, 1] [0, 0] [1, 1] [1, 1] [0, 0])[0]? = some (PMAS 1 0 1 1 0) ∧
    (PMASV [1, 1] [0, 0] [1, 0] [1, 0] [0, 1])[0]? = some (PMAS 1 0 1 1 0) ∧
    (PMASV [1, 1] [0, 0] [1, 1] [1, 1] [0, 0])[0]? =
      (PMASV [1, 1] [0, 0] [1, 0] [1, 0] [0, 1])[0]? :=
  pmasv_elementwise [1, 1] [0, 0] [1, 1] [1, 1] [0, 0]
    [1, 1] [0, 0] [1, 0] [1, 0] [0, 1] 0 1 0 1 1 0
    rfl rfl rfl rfl rfl rfl rfl rfl rfl rfl

/-- Witness for C10 at `λ = 2` on the input `(1, 0, 1, 1, 0)` with `P = 1`
and `b = 1`. -/
theorem pmas_scale_witness :
    PMAS 1 0 1 1 0 =
      .fin (1 - 1 ^ 2 * (1 - Real.exp (-1 ^ 2 / 1 ^ 2)) / 2 / 1) ∧
    PMAS (2 * 1) (2 * 0) (2 * 1) (2 * 1) (2 ^ 2 * 0) =
      .fin (2 * (1 - 1 ^ 2 * (1 - Real.exp (-1 ^ 2 / 1 ^ 2)) / 2 / 1)) :=
  pmas_scale 2 1 0 1 1 0 1 1 two_pos
    (by rw [show ((1 : ℝ) ^ 2 + 0 ^ 2) = 1 by norm_num, Real.sqrt_one]) one_pos
    (biasOf_isotropic 1 0) one_pos

end Chivos
